import Mathlib

/-!
# Verification of `pysal/spatial_dynamics/markov/ergodic.py`

The module under verification has two functions over a dense `k × k` matrix of
reals, embedded here over `ℚ` (exact arithmetic in place of IEEE-754 floats):

* `steady_state P` — computes `v, d = la.eig(transpose P)`, picks the index `i`
  of the maximal eigenvalue `mv = max v`, and returns the normalized column
  `d[:, i] / sum(d[:, i])`.  The LAPACK call `la.eig` is an external
  collaborator (not part of the repository), so the embedded `steady_state`
  takes the eigen output `(v, d)` as arguments; theorems quantify over all
  `(v, d)` satisfying the eigendecomposition contract (`IsEigenpairs`,
  `HasAllEigenvalues`, nonzero columns) for `transpose P`.

* `fmpt P` — computes `A = P ** 1000`, `Z = la.inv(I - P + A)` and the matrix
  `M` with `M[i,j] = (Z[j,j] - Z[i,j]) / A[j,j]`.  The external `la.inv`
  raises `LinAlgError` on a singular argument, which is modelled by `npinv`
  returning `Except.error NumErr.singularMatrix` exactly when the determinant
  vanishes; the exception propagates out of `fmpt` untouched.
-/

namespace Ergodic

open Matrix

/-- Failure of `numpy.linalg.inv` (`LinAlgError`) raised on a singular
matrix, propagated to the caller of `fmpt`. -/
inductive NumErr where
  | singularMatrix
deriving DecidableEq

/-- Model of `numpy.linalg.inv`: on a nonsingular matrix it returns the
inverse `det⁻¹ • adjugate`; on a singular one it raises `LinAlgError`. -/
def npinv {k : ℕ} (A : Matrix (Fin k) (Fin k) ℚ) :
    Except NumErr (Matrix (Fin k) (Fin k) ℚ) :=
  if A.det = 0 then Except.error NumErr.singularMatrix
  else Except.ok (A.det⁻¹ • A.adjugate)

/-- `mv = max(v)` of the source: the maximum of the eigenvalue array. -/
def selMax {k : ℕ} [NeZero k] (v : Fin k → ℚ) : ℚ :=
  Finset.univ.sup' (Finset.univ_nonempty) v

lemma exists_selMax {k : ℕ} [NeZero k] (v : Fin k → ℚ) : ∃ j, v j = selMax v := by
  obtain ⟨j, -, hj⟩ := Finset.exists_mem_eq_sup' (Finset.univ_nonempty) v
  exact ⟨j, hj.symm⟩

/-- `i = v.tolist().index(mv)` of the source: the first index attaining the
maximal eigenvalue (on `Fin k` the least such index). -/
def selIdx {k : ℕ} [NeZero k] (v : Fin k → ℚ) : Fin k :=
  (Finset.univ.filter fun j => v j = selMax v).min' (by
    obtain ⟨j, hj⟩ := exists_selMax v
    exact ⟨j, by simp [hj]⟩)

lemma selIdx_spec {k : ℕ} [NeZero k] (v : Fin k → ℚ) : v (selIdx v) = selMax v := by
  have h := Finset.min'_mem (Finset.univ.filter fun j => v j = selMax v) (by
    obtain ⟨j, hj⟩ := exists_selMax v
    exact ⟨j, by simp [hj]⟩)
  simpa [selIdx] using (Finset.mem_filter.mp h).2

lemma le_selMax {k : ℕ} [NeZero k] (v : Fin k → ℚ) (j : Fin k) : v j ≤ selMax v :=
  Finset.le_sup' v (Finset.mem_univ j)

/-- Embedding of `steady_state` (`ergodic.py`, lines 40–48).  The source is

    v, d = la.eig(np.transpose(P))
    mv = max(v)
    i = v.tolist().index(mv)
    return d[:, i] / sum(d[:, i])

The external eigen-solver output `(v, d)` is passed in; the body after the
`la.eig` call is embedded literally. -/
def steady_state {k : ℕ} [NeZero k] (v : Fin k → ℚ) (d : Matrix (Fin k) (Fin k) ℚ) :
    Fin k → ℚ :=
  fun r => d r (selIdx v) / ∑ s, d s (selIdx v)

/-- Column `j` of the eigenvector matrix `d`, i.e. `d[:, j]`. -/
def dcol {k : ℕ} (d : Matrix (Fin k) (Fin k) ℚ) (j : Fin k) : Fin k → ℚ :=
  fun r => d r j

/-- Contract of `la.eig(transpose P)`: every column of `d` is an eigenvector
of `transpose P` for the corresponding entry of `v`. -/
def IsEigenpairs {k : ℕ} (P : Matrix (Fin k) (Fin k) ℚ) (v : Fin k → ℚ)
    (d : Matrix (Fin k) (Fin k) ℚ) : Prop :=
  ∀ j, Pᵀ.mulVec (dcol d j) = v j • dcol d j

/-- Contract of `la.eig(transpose P)`: the array `v` lists every eigenvalue of
`transpose P` (stated for eigenvalues in the scalar field of the embedding). -/
def HasAllEigenvalues {k : ℕ} (P : Matrix (Fin k) (Fin k) ℚ) (v : Fin k → ℚ) : Prop :=
  ∀ lam : ℚ, (∃ c, c ≠ 0 ∧ Pᵀ.mulVec c = lam • c) → ∃ j, v j = lam

/-- Embedding of `fmpt` (`ergodic.py`, lines 97–105).  The source is

    A = P ** 1000
    n, k = A.shape
    I = np.identity(k)
    Z = la.inv(I - P + A)
    M = np.zeros_like(Z)
    for i in range(k):
        for j in range(k):
            M[i, j] = (Z[j, j] - Z[i, j]) / A[j, j]
    return M

with the local `A = P ** 1000` inlined.  A raised `LinAlgError` from
`la.inv` propagates to the caller. -/
def fmpt {k : ℕ} (P : Matrix (Fin k) (Fin k) ℚ) :
    Except NumErr (Matrix (Fin k) (Fin k) ℚ) :=
  match npinv (1 - P + P ^ 1000) with
  | Except.error e => Except.error e
  | Except.ok Z =>
      Except.ok (Matrix.of fun i j => (Z j j - Z i j) / (P ^ 1000) j j)

lemma npinv_error_iff {k : ℕ} (A : Matrix (Fin k) (Fin k) ℚ) :
    npinv A = Except.error NumErr.singularMatrix ↔ A.det = 0 := by
  unfold npinv
  split <;> simp_all

lemma npinv_ok_of_det_ne {k : ℕ} (A : Matrix (Fin k) (Fin k) ℚ) (h : A.det ≠ 0) :
    npinv A = Except.ok A⁻¹ := by
  rw [npinv, if_neg h, Matrix.inv_def, Ring.inverse_eq_inv]

lemma fmpt_of_npinv_ok {k : ℕ} (P Z : Matrix (Fin k) (Fin k) ℚ)
    (h : npinv (1 - P + P ^ 1000) = Except.ok Z) :
    fmpt P = Except.ok (Matrix.of fun i j => (Z j j - Z i j) / (P ^ 1000) j j) := by
  unfold fmpt
  rw [h]

lemma fmpt_diag_aux {k : ℕ} (P M : Matrix (Fin k) (Fin k) ℚ)
    (h : fmpt P = Except.ok M) (j : Fin k) : M j j = 0 := by
  unfold fmpt at h
  rcases hnp : npinv (1 - P + P ^ 1000) with e | Z <;> rw [hnp] at h
  · cases h
  · have hM : M = Matrix.of fun i j => (Z j j - Z i j) / (P ^ 1000) j j := by
      cases h
      rfl
    rw [hM]
    simp

lemma one_sub_one_add_pow (k : ℕ) :
    (1 : Matrix (Fin k) (Fin k) ℚ) - 1 + 1 ^ 1000 = 1 := by
  rw [one_pow, sub_add_cancel]

lemma fmpt_one : fmpt (1 : Matrix (Fin 1) (Fin 1) ℚ) = Except.ok 0 := by
  have h : npinv ((1 : Matrix (Fin 1) (Fin 1) ℚ) - 1 + 1 ^ 1000) = Except.ok 1 := by
    rw [one_sub_one_add_pow]
    rw [npinv_ok_of_det_ne 1 (by rw [Matrix.det_one]; norm_num), inv_one]
  rw [fmpt_of_npinv_ok _ _ h]
  congr 1
  ext i j
  simp [one_pow, Matrix.one_apply, Subsingleton.elim i j]

/-- **C6.** `fmpt P` propagates a `LinAlgError`-class failure to the caller
exactly when `I - P + A` (with `A = P ^ 1000`) is singular, and in that case
no (partial) result matrix is returned. -/
theorem fmpt_error_iff_singular {k : ℕ} (P : Matrix (Fin k) (Fin k) ℚ) :
    ((∃ e, fmpt P = Except.error e) ↔ (1 - P + P ^ 1000).det = 0) ∧
      ((1 - P + P ^ 1000).det = 0 → ∀ M, fmpt P ≠ Except.ok M) := by
  have hmain : (∃ e, fmpt P = Except.error e) ↔ (1 - P + P ^ 1000).det = 0 := by
    constructor
    · rintro ⟨e, he⟩
      by_contra hdet
      rw [fmpt_of_npinv_ok _ _ (npinv_ok_of_det_ne _ hdet)] at he
      cases he
    · intro hdet
      refine ⟨NumErr.singularMatrix, ?_⟩
      unfold fmpt
      rw [(npinv_error_iff _).mpr hdet]
  refine ⟨hmain, fun hdet M hM => ?_⟩
  obtain ⟨e, he⟩ := hmain.mpr hdet
  rw [hM] at he
  cases he

/-- **C6 witness** at the concrete input `P = [[1]]` (nonsingular case): the
determinant is `1`, and indeed no error is raised. -/
theorem fmpt_error_iff_singular_witness :
    ((1 : Matrix (Fin 1) (Fin 1) ℚ) - 1 + 1 ^ 1000).det = 1 ∧
      fmpt (1 : Matrix (Fin 1) (Fin 1) ℚ) ≠ Except.error NumErr.singularMatrix := by
  have hdet : ((1 : Matrix (Fin 1) (Fin 1) ℚ) - 1 + 1 ^ 1000).det = 1 := by
    rw [one_sub_one_add_pow, Matrix.det_one]
  refine ⟨hdet, fun h => ?_⟩
  have h0 := (fmpt_error_iff_singular 1).1.mp ⟨_, h⟩
  rw [hdet] at h0
  norm_num at h0

/-- **C8.** On any input where the inversion succeeds, `fmpt` returns exactly
the matrix `M` with `M i j = (Z j j - Z i j) / A j j`, where `A = P ^ 1000`
and `Z` is the true matrix inverse of `I - P + A`. -/
theorem fmpt_steps {k : ℕ} (P : Matrix (Fin k) (Fin k) ℚ)
    (h : (1 - P + P ^ 1000).det ≠ 0) :
    ∃ M Z, fmpt P = Except.ok M ∧ Z = (1 - P + P ^ 1000)⁻¹ ∧
      ∀ i j, M i j = (Z j j - Z i j) / (P ^ 1000) j j := by
  refine ⟨_, _, fmpt_of_npinv_ok _ _ (npinv_ok_of_det_ne _ h), rfl, fun i j => ?_⟩
  rfl

/-- **C8 witness** at `P = [[1]]`: the determinant hypothesis holds (it is
`1`) and the formula forces the result `[[0]]`. -/
theorem fmpt_steps_witness :
    ((1 : Matrix (Fin 1) (Fin 1) ℚ) - 1 + 1 ^ 1000).det = 1 ∧
      fmpt (1 : Matrix (Fin 1) (Fin 1) ℚ) = Except.ok 0 := by
  have hdet : ((1 : Matrix (Fin 1) (Fin 1) ℚ) - 1 + 1 ^ 1000).det = 1 := by
    rw [one_sub_one_add_pow, Matrix.det_one]
  have hne : ((1 : Matrix (Fin 1) (Fin 1) ℚ) - 1 + 1 ^ 1000).det ≠ 0 := by
    rw [hdet]
    norm_num
  obtain ⟨M, Z, h1, _, h3⟩ := fmpt_steps 1 hne
  have hM : M = 0 := by
    ext a b
    have hab : a = b := Subsingleton.elim a b
    subst hab
    have h4 := h3 a a
    rw [sub_self, zero_div] at h4
    simpa using h4
  rw [hM] at h1
  exact ⟨hdet, h1⟩

/-- **C2.** Whenever `fmpt` completes and returns a matrix `M`, every
diagonal entry satisfies `M j j = (Z j j - Z j j) / A j j = 0`. -/
theorem fmpt_diag_zero {k : ℕ} (P M : Matrix (Fin k) (Fin k) ℚ)
    (hM : fmpt P = Except.ok M) (j : Fin k) : M j j = 0 :=
  fmpt_diag_aux P M hM j

/-- **C2 witness** at `P = [[1]]`: `fmpt` completes with the zero matrix and
its diagonal entry is `0`. -/
theorem fmpt_diag_zero_witness :
    fmpt (1 : Matrix (Fin 1) (Fin 1) ℚ) = Except.ok 0 ∧
      (0 : Matrix (Fin 1) (Fin 1) ℚ) 0 0 = 0 :=
  ⟨fmpt_one, fmpt_diag_zero 1 0 fmpt_one 0⟩

lemma mat1_eq_one : !![(1 : ℚ)] = (1 : Matrix (Fin 1) (Fin 1) ℚ) := by
  ext i j
  fin_cases i
  fin_cases j
  simp

lemma mat0_eq_zero : !![(0 : ℚ)] = (0 : Matrix (Fin 1) (Fin 1) ℚ) := by
  ext i j
  fin_cases i
  fin_cases j
  simp

lemma steady_state_one : steady_state ![(1 : ℚ)] !![(1 : ℚ)] = ![1] := by
  funext r
  fin_cases r
  simp [steady_state, Fin.sum_univ_one, Subsingleton.elim (selIdx ![(1 : ℚ)]) 0]

/-- **C1 (amended).**  Whenever `fmpt P` completes, each diagonal entry of the
returned matrix is `0`; in particular it is never the reciprocal `1 / s` of a
stationary probability `s ∈ (0, 1]` (such a reciprocal is at least `1`), so
the mean-recurrence-time identity `fmpt(P)[j][j] = 1 / steady_state(P)[j]`
fails for the code as written. -/
theorem fmpt_diag_not_reciprocal {k : ℕ} (P M : Matrix (Fin k) (Fin k) ℚ)
    (hM : fmpt P = Except.ok M) (j : Fin k) :
    M j j = 0 ∧ ∀ s : ℚ, 0 < s → s ≤ 1 → M j j ≠ 1 / s := by
  have h0 := fmpt_diag_aux P M hM j
  refine ⟨h0, fun s hs hs1 h => ?_⟩
  rw [h0] at h
  have h1 : 1 ≤ 1 / s := by
    rw [le_div_iff₀ hs]
    linarith
  linarith [h ▸ h1]

/-- **C1 witness** for the amended statement, at `P = [[1]]`, `s = 1`. -/
theorem fmpt_diag_not_reciprocal_witness :
    (0 : Matrix (Fin 1) (Fin 1) ℚ) 0 0 = 0 ∧
      (0 : Matrix (Fin 1) (Fin 1) ℚ) 0 0 ≠ 1 / 1 :=
  ⟨(fmpt_diag_not_reciprocal 1 0 fmpt_one 0).1,
    (fmpt_diag_not_reciprocal 1 0 fmpt_one 0).2 1 one_pos le_rfl⟩

/-- **C1 counterexample.**  At the ergodic input `P = [[1]]` (with the valid
eigen output `v = [1]`, `d = [[1]]` for `transpose P`), `steady_state` returns
`[1]` and `fmpt` completes with `[[0]]`, yet the diagonal entry `0` differs
from `1 / steady_state(P)[0] = 1`: the claimed identity is false on the code. -/
theorem fmpt_diag_reciprocal_cex :
    IsEigenpairs !![(1 : ℚ)] ![1] !![1] ∧
      steady_state ![(1 : ℚ)] !![(1 : ℚ)] = ![1] ∧
      fmpt !![(1 : ℚ)] = Except.ok !![0] ∧
      ¬ ((!![(0 : ℚ)]) 0 0 = 1 / steady_state ![(1 : ℚ)] !![(1 : ℚ)] 0) := by
  refine ⟨?_, steady_state_one, ?_, ?_⟩
  · intro j
    funext r
    fin_cases j
    fin_cases r
    simp [dcol, Matrix.mulVec, dotProduct, Fin.sum_univ_one]
  · rw [mat1_eq_one, mat0_eq_zero, fmpt_one]
  · rw [steady_state_one]
    norm_num

/-- **C9.**  For the 1×1 boundary input `P = [[1]]` (with any valid eigen
output for `transpose P`): `steady_state` returns `[1]`, `fmpt` returns
`[[0]]`, and neither call raises. -/
theorem boundary_1x1 (v : Fin 1 → ℚ) (d : Matrix (Fin 1) (Fin 1) ℚ)
    (_hpair : IsEigenpairs !![(1 : ℚ)] v d) (hnz : ∀ j, dcol d j ≠ 0) :
    steady_state v d = ![1] ∧ fmpt !![(1 : ℚ)] = Except.ok !![0] := by
  constructor
  · have hd : d 0 0 ≠ 0 := by
      intro h
      apply hnz 0
      funext r
      fin_cases r
      exact h
    funext r
    fin_cases r
    have hsel : selIdx v = 0 := Subsingleton.elim _ _
    simp [steady_state, Fin.sum_univ_one, hsel, div_self hd]
  · rw [mat1_eq_one, mat0_eq_zero, fmpt_one]

/-- **C9 witness** with the concrete eigen output `v = [1]`, `d = [[1]]`. -/
theorem boundary_1x1_witness :
    steady_state ![(1 : ℚ)] !![(1 : ℚ)] = ![1] ∧
      fmpt !![(1 : ℚ)] = Except.ok !![0] := by
  refine boundary_1x1 ![1] !![1] ?_ ?_
  · intro j
    funext r
    fin_cases j
    fin_cases r
    simp [dcol, Matrix.mulVec, dotProduct, Fin.sum_univ_one]
  · intro j h
    have := congrFun h 0
    fin_cases j
    simp [dcol] at this

lemma abs_sum_sign {k : ℕ} (f : Fin k → ℚ) (h : |∑ j, f j| = ∑ j, |f j|) :
    (∀ j, 0 ≤ f j) ∨ (∀ j, f j ≤ 0) := by
  rcases le_or_lt 0 (∑ j, f j) with hs | hs
  · left
    have h1 : ∑ j, (|f j| - f j) = 0 := by
      rw [Finset.sum_sub_distrib, ← h, abs_of_nonneg hs, sub_self]
    intro j
    have h2 := (Finset.sum_eq_zero_iff_of_nonneg
      (fun j _ => sub_nonneg.mpr (le_abs_self (f j)))).mp h1 j (Finset.mem_univ j)
    exact abs_eq_self.mp (sub_eq_zero.mp h2)
  · right
    have h1 : ∑ j, (|f j| + f j) = 0 := by
      rw [Finset.sum_add_distrib, ← h, abs_of_neg hs]
      ring
    intro j
    have h2 := (Finset.sum_eq_zero_iff_of_nonneg
      (fun j _ => by linarith [neg_abs_le (f j)])).mp h1 j (Finset.mem_univ j)
    exact abs_eq_neg_self.mp (by linarith)

/-- **C3.**  For a row-stochastic, regular (some power entrywise positive)
matrix `P` and any output `(v, d)` of the external eigen-solver on
`transpose P` satisfying its contract, if the selected dominant column has
nonzero entry sum then `steady_state` returns a vector summing to `1` with
all entries non-negative (entries are rational, hence real). -/
theorem steady_state_sum_one_nonneg {k : ℕ} [NeZero k]
    (P : Matrix (Fin k) (Fin k) ℚ) (v : Fin k → ℚ) (d : Matrix (Fin k) (Fin k) ℚ)
    (hP0 : ∀ i j, 0 ≤ P i j) (hP1 : ∀ i, ∑ j, P i j = 1)
    (hprim : ∃ N, ∀ i j, 0 < (P ^ N) i j)
    (hpair : IsEigenpairs P v d) (hnz : ∀ j, dcol d j ≠ 0)
    (hall : HasAllEigenvalues P v)
    (hsum : ∑ r, d r (selIdx v) ≠ 0) :
    (∑ r, steady_state v d r = 1) ∧ ∀ r, 0 ≤ steady_state v d r := by
  have hsum1 : ∑ r, steady_state v d r = 1 := by
    unfold steady_state
    rw [← Finset.sum_div, div_self hsum]
  set i : Fin k := selIdx v with hi
  set c : Fin k → ℚ := dcol d i with hc
  have hpc : Pᵀ.mulVec c = v i • c := hpair i
  have hcne : c ≠ 0 := hnz i
  have hmv : ∀ (x : Fin k → ℚ) (r : Fin k), Pᵀ.mulVec x r = ∑ s, P s r * x s := by
    intro x r
    simp [Matrix.mulVec, dotProduct, Matrix.transpose_apply]
  have hsum2 : ∀ x : Fin k → ℚ, (∑ r, ∑ s, P s r * x s) = ∑ s, x s := by
    intro x
    rw [Finset.sum_comm]
    refine Finset.sum_congr rfl fun s _ => ?_
    rw [← Finset.sum_mul, hP1 s, one_mul]
  -- `1` is an eigenvalue of `transpose P`, so `max v ≥ 1`
  have hPones : P.mulVec (fun _ => 1) = fun _ => 1 := by
    funext r
    simp [Matrix.mulVec, dotProduct, hP1 r]
  have hdet : (P - 1).det = 0 := by
    apply Matrix.exists_mulVec_eq_zero_iff.mp
    refine ⟨fun _ => 1, ?_, ?_⟩
    · intro h
      have h0 := congrFun h (Classical.arbitrary (Fin k))
      norm_num at h0
    · rw [Matrix.sub_mulVec, hPones, Matrix.one_mulVec, sub_self]
  have hdetT : (Pᵀ - 1).det = 0 := by
    rw [← Matrix.transpose_one, ← Matrix.transpose_sub, Matrix.det_transpose]
    exact hdet
  have hone : ∃ c0, c0 ≠ 0 ∧ Pᵀ.mulVec c0 = (1 : ℚ) • c0 := by
    obtain ⟨c0, hc0ne, hc0⟩ := Matrix.exists_mulVec_eq_zero_iff.mpr hdetT
    rw [Matrix.sub_mulVec, Matrix.one_mulVec] at hc0
    exact ⟨c0, hc0ne, by rw [one_smul]; exact sub_eq_zero.mp hc0⟩
  have hmv1le : (1 : ℚ) ≤ selMax v := by
    obtain ⟨j, hj⟩ := hall 1 hone
    rw [← hj]
    exact le_selMax v j
  have habs_pos : 0 < ∑ s, |c s| := by
    have hex : ∃ s, c s ≠ 0 := by
      by_contra h
      push_neg at h
      exact hcne (funext fun s => h s)
    obtain ⟨s0, hs0⟩ := hex
    exact Finset.sum_pos' (fun s _ => abs_nonneg _)
      ⟨s0, Finset.mem_univ s0, abs_pos.mpr hs0⟩
  have hterm : ∀ (x : Fin k → ℚ) (r : Fin k),
      |∑ s, P s r * x s| ≤ ∑ s, P s r * |x s| := by
    intro x r
    calc |∑ s, P s r * x s| ≤ ∑ s, |P s r * x s| := Finset.abs_sum_le_sum_abs _ _
      _ = ∑ s, P s r * |x s| := Finset.sum_congr rfl fun s _ => by
            rw [abs_mul, abs_of_nonneg (hP0 s r)]
  have hvile : |v i| ≤ 1 := by
    have h2 : ∑ r, |(Pᵀ.mulVec c) r| = |v i| * ∑ s, |c s| := by
      rw [Finset.mul_sum]
      refine Finset.sum_congr rfl fun r _ => ?_
      rw [hpc]
      simp [abs_mul]
    have h3 : ∑ r, |(Pᵀ.mulVec c) r| ≤ ∑ s, |c s| := by
      calc ∑ r, |(Pᵀ.mulVec c) r| ≤ ∑ r, ∑ s, P s r * |c s| := by
            refine Finset.sum_le_sum fun r _ => ?_
            rw [hmv c r]
            exact hterm c r
        _ = ∑ s, |c s| := hsum2 _
    rw [h2] at h3
    nlinarith [habs_pos, h3]
  have hv_eq_1 : v i = 1 := by
    have h5 : 1 ≤ v i := by
      rw [hi, selIdx_spec v]
      exact hmv1le
    linarith [le_abs_self (v i), hvile]
  have hpc1 : Pᵀ.mulVec c = c := by
    rw [hpc, hv_eq_1, one_smul]
  -- the entrywise absolute value of `c` is again a fixed vector
  set u : Fin k → ℚ := fun r => |c r| with hu
  have hptu_ge : ∀ r, u r ≤ (Pᵀ.mulVec u) r := by
    intro r
    have h1 : |(Pᵀ.mulVec c) r| ≤ (Pᵀ.mulVec u) r := by
      rw [hmv c r, hmv u r]
      exact hterm c r
    rw [hpc1] at h1
    exact h1
  have hsums_eq : ∑ r, (Pᵀ.mulVec u) r = ∑ r, u r := by
    calc ∑ r, (Pᵀ.mulVec u) r = ∑ r, ∑ s, P s r * u s :=
          Finset.sum_congr rfl fun r _ => hmv u r
      _ = ∑ s, u s := hsum2 u
  have hptu : Pᵀ.mulVec u = u := by
    funext r
    have hz : ∑ r, ((Pᵀ.mulVec u) r - u r) = 0 := by
      rw [Finset.sum_sub_distrib, hsums_eq, sub_self]
    have h6 := (Finset.sum_eq_zero_iff_of_nonneg
      (fun r _ => sub_nonneg.mpr (hptu_ge r))).mp hz r (Finset.mem_univ r)
    linarith [h6]
  obtain ⟨N, hN⟩ := hprim
  have hiter : ∀ (x : Fin k → ℚ), Pᵀ.mulVec x = x →
      ∀ n : ℕ, (Pᵀ ^ n).mulVec x = x := by
    intro x hx n
    induction n with
    | zero => simp [Matrix.one_mulVec]
    | succ n ih => rw [pow_succ, ← Matrix.mulVec_mulVec, hx, ih]
  have hmvN : ∀ (x : Fin k → ℚ) (r : Fin k),
      (Pᵀ ^ N).mulVec x r = ∑ s, (P ^ N) s r * x s := by
    intro x r
    rw [← Matrix.transpose_pow]
    simp [Matrix.mulVec, dotProduct, Matrix.transpose_apply]
  obtain ⟨r0⟩ : Nonempty (Fin k) := inferInstance
  have hkey : |∑ s, (P ^ N) s r0 * c s| = ∑ s, |(P ^ N) s r0 * c s| := by
    have h1 : ∑ s, (P ^ N) s r0 * c s = c r0 := by
      rw [← hmvN c r0, hiter c hpc1 N]
    have h2 : ∑ s, (P ^ N) s r0 * u s = u r0 := by
      rw [← hmvN u r0, hiter u hptu N]
    rw [h1]
    rw [show (∑ s, |(P ^ N) s r0 * c s|) = ∑ s, (P ^ N) s r0 * u s from
      Finset.sum_congr rfl fun s _ => by rw [abs_mul, abs_of_nonneg (le_of_lt (hN s r0))]]
    rw [h2]
  have hsgn : (∀ s, 0 ≤ c s) ∨ (∀ s, c s ≤ 0) := by
    rcases abs_sum_sign _ hkey with h | h
    · left
      intro s
      by_contra hneg
      push_neg at hneg
      nlinarith [hN s r0, h s]
    · right
      intro s
      by_contra hpos
      push_neg at hpos
      nlinarith [hN s r0, h s]
  refine ⟨hsum1, fun r => ?_⟩
  show 0 ≤ d r i / ∑ s, d s i
  have hSc : (∑ s, d s i) = ∑ s, c s := rfl
  rcases hsgn with h | h
  · have hS0 : (0 : ℚ) ≤ ∑ s, d s i := by
      rw [hSc]
      exact Finset.sum_nonneg fun s _ => h s
    have hS : 0 < ∑ s, d s i := by
      rcases lt_or_eq_of_le hS0 with h' | h'
      · exact h'
      · exact absurd h'.symm hsum
    exact div_nonneg (h r) (le_of_lt hS)
  · have hS : (∑ s, d s i) ≤ 0 := by
      rw [hSc]
      exact Finset.sum_nonpos fun s _ => h s
    exact div_nonneg_of_nonpos (h r) hS

/-- **C3 witness** at `P = [[1]]` with eigen output `v = [1]`, `d = [[1]]`. -/
theorem steady_state_sum_one_nonneg_witness :
    (∑ r, steady_state ![(1 : ℚ)] !![(1 : ℚ)] r = 1) ∧
      0 ≤ steady_state ![(1 : ℚ)] !![(1 : ℚ)] 0 := by
  suffices h : (∑ r, steady_state ![(1 : ℚ)] !![(1 : ℚ)] r = 1) ∧
      ∀ r, 0 ≤ steady_state ![(1 : ℚ)] !![(1 : ℚ)] r from ⟨h.1, h.2 0⟩
  refine steady_state_sum_one_nonneg !![(1 : ℚ)] ![1] !![1] ?_ ?_ ⟨1, ?_⟩ ?_ ?_ ?_ ?_
  · intro a b
    fin_cases a
    fin_cases b
    norm_num
  · intro a
    fin_cases a
    simp
  · intro a b
    fin_cases a
    fin_cases b
    simp [pow_one]
  · intro j
    funext r
    fin_cases j
    fin_cases r
    simp [dcol, Matrix.mulVec, dotProduct, Fin.sum_univ_one]
  · intro j h
    have h0 := congrFun h 0
    fin_cases j
    simp [dcol] at h0
  · intro lam ⟨c0, hc0ne, hc0⟩
    refine ⟨0, ?_⟩
    have hc00 : c0 0 ≠ 0 := by
      intro hz
      apply hc0ne
      funext r
      fin_cases r
      exact hz
    have h0 := congrFun hc0 0
    simp [Matrix.mulVec, dotProduct, Fin.sum_univ_one] at h0
    -- h0 : c0 0 = lam * c0 0
    have : (1 : ℚ) * c0 0 = lam * c0 0 := by linarith [h0]
    simpa using mul_right_cancel₀ hc00 this
  · simp [selIdx]

lemma vec3_ext {f g : Fin 3 → ℚ} (h0 : f 0 = g 0) (h1 : f 1 = g 1) (h2 : f 2 = g 2) :
    f = g := by
  funext r
  fin_cases r
  · exact h0
  · exact h1
  · exact h2

lemma mat3_ext {A B : Matrix (Fin 3) (Fin 3) ℚ}
    (h00 : A 0 0 = B 0 0) (h01 : A 0 1 = B 0 1) (h02 : A 0 2 = B 0 2)
    (h10 : A 1 0 = B 1 0) (h11 : A 1 1 = B 1 1) (h12 : A 1 2 = B 1 2)
    (h20 : A 2 0 = B 2 0) (h21 : A 2 1 = B 2 1) (h22 : A 2 2 = B 2 2) : A = B := by
  ext i j
  fin_cases i <;> fin_cases j
  · exact h00
  · exact h01
  · exact h02
  · exact h10
  · exact h11
  · exact h12
  · exact h20
  · exact h21
  · exact h22

lemma fin3_forall {p : Fin 3 → Prop} (h0 : p 0) (h1 : p 1) (h2 : p 2) : ∀ j, p j := by
  intro j
  fin_cases j
  · exact h0
  · exact h1
  · exact h2

/-- The Land-of-Oz transition matrix of the doctests,
`P = [[.5,.25,.25],[.5,0,.5],[.25,.25,.5]]`. -/
def Poz : Matrix (Fin 3) (Fin 3) ℚ := !![1/2, 1/4, 1/4; 1/2, 0, 1/2; 1/4, 1/4, 1/2]

lemma ozT_lit : Pozᵀ = !![(1:ℚ)/2, 1/2, 1/4; 1/4, 0, 1/4; 1/4, 1/2, 1/2] := by
  rw [eta_fin_three Pozᵀ]
  simp only [Matrix.transpose_apply, Poz, Matrix.of_apply, Matrix.cons_val_zero,
    Matrix.cons_val_one, Matrix.cons_val_two, Matrix.head_cons, Matrix.tail_cons]

/-- The eigenvalues of `transpose Poz` are exactly `1`, `1/4`, `-1/4`. -/
lemma oz_eigenvalues (lam : ℚ) (c : Fin 3 → ℚ) (hc0 : c ≠ 0)
    (hc : Pozᵀ.mulVec c = lam • c) : lam = 1 ∨ lam = 1/4 ∨ lam = -1/4 := by
  have h0 : (Pozᵀ - lam • 1).mulVec c = 0 := by
    rw [Matrix.sub_mulVec, Matrix.smul_mulVec_assoc, Matrix.one_mulVec, hc, sub_self]
  have hdet : (Pozᵀ - lam • 1).det = 0 :=
    Matrix.exists_mulVec_eq_zero_iff.mp ⟨c, hc0, h0⟩
  rw [ozT_lit] at hdet
  have hlit : (!![(1:ℚ)/2, 1/2, 1/4; 1/4, 0, 1/4; 1/4, 1/2, 1/2]
        - lam • 1 : Matrix (Fin 3) (Fin 3) ℚ)
      = !![1/2 - lam, 1/2, 1/4; 1/4, 0 - lam, 1/4; 1/4, 1/2, 1/2 - lam] := by
    rw [one_fin_three]
    apply mat3_ext <;>
      · simp only [Matrix.sub_apply, Matrix.smul_apply, smul_eq_mul, Matrix.of_apply,
          Matrix.cons_val_zero, Matrix.cons_val_one, Matrix.cons_val_two,
          Matrix.head_cons, Matrix.tail_cons]
        ring
  rw [hlit, Matrix.det_fin_three] at hdet
  simp only [Matrix.of_apply, Matrix.cons_val_zero, Matrix.cons_val_one,
    Matrix.cons_val_two, Matrix.head_cons, Matrix.tail_cons] at hdet
  have hfac : (lam - 1) * (lam - 1/4) * (lam + 1/4) = 0 := by
    linear_combination -hdet
  rcases mul_eq_zero.mp hfac with h | h
  · rcases mul_eq_zero.mp h with h' | h'
    · exact Or.inl (by linarith [sub_eq_zero.mp h'])
    · exact Or.inr (Or.inl (by linarith [sub_eq_zero.mp h']))
  · exact Or.inr (Or.inr (by linarith [add_eq_zero_iff_eq_neg.mp h]))

/-- **C4.**  For the Oz matrix and any eigen output `(v, d)` satisfying the
solver contract, `steady_state` returns exactly `[2/5, 1/5, 2/5]` (the
floating-point result `[0.4, 0.2, 0.4]` of the doctest). -/
theorem steady_state_oz (v : Fin 3 → ℚ) (d : Matrix (Fin 3) (Fin 3) ℚ)
    (hpair : IsEigenpairs Poz v d) (hnz : ∀ j, dcol d j ≠ 0)
    (hall : HasAllEigenvalues Poz v) :
    steady_state v d = ![2/5, 1/5, 2/5] := by
  have hvals : ∀ j, v j = 1 ∨ v j = 1/4 ∨ v j = -1/4 := fun j =>
    oz_eigenvalues (v j) (dcol d j) (hnz j) (hpair j)
  have hone : ∃ j, v j = 1 := by
    apply hall 1
    refine ⟨![2, 1, 2], ?_, ?_⟩
    · intro h
      have h0 := congrFun h 0
      simp only [Matrix.cons_val_zero, Pi.zero_apply] at h0
      norm_num at h0
    · rw [ozT_lit]
      apply vec3_ext <;>
        · simp only [Matrix.mulVec, dotProduct, Fin.sum_univ_three, Matrix.of_apply,
            Matrix.cons_val_zero, Matrix.cons_val_one, Matrix.cons_val_two,
            Matrix.head_cons, Matrix.tail_cons, Pi.smul_apply, smul_eq_mul]
          norm_num
  have hmax : selMax v = 1 := by
    apply le_antisymm
    · apply Finset.sup'_le
      intro j _
      rcases hvals j with h | h | h <;> rw [h] <;> norm_num
    · obtain ⟨j, hj⟩ := hone
      rw [← hj]
      exact le_selMax v j
  set i : Fin 3 := selIdx v with hi
  have hvi : v i = 1 := by rw [hi, selIdx_spec v, hmax]
  set c : Fin 3 → ℚ := dcol d i with hc
  have hpc : Pozᵀ.mulVec c = c := by
    have h := hpair i
    rw [hvi, one_smul] at h
    exact h
  rw [ozT_lit] at hpc
  have e0 := congrFun hpc 0
  have e1 := congrFun hpc 1
  have e2 := congrFun hpc 2
  simp only [Matrix.mulVec, dotProduct, Fin.sum_univ_three, Matrix.of_apply,
    Matrix.cons_val_zero, Matrix.cons_val_one, Matrix.cons_val_two,
    Matrix.head_cons, Matrix.tail_cons] at e0 e1 e2
  have h2 : c 2 = c 0 := by linarith
  have h1 : c 1 = c 0 / 2 := by linarith
  have hc0ne : c 0 ≠ 0 := by
    intro hz
    apply hnz i
    apply vec3_ext
    · show c 0 = (0 : Fin 3 → ℚ) 0
      rw [hz]
      rfl
    · show c 1 = (0 : Fin 3 → ℚ) 1
      rw [h1, hz]
      norm_num
    · show c 2 = (0 : Fin 3 → ℚ) 2
      rw [h2, hz]
      rfl
  have hS : (∑ s, d s i) = 5/2 * c 0 := by
    rw [Fin.sum_univ_three]
    have he : d 0 i + d 1 i + d 2 i = c 0 + c 1 + c 2 := rfl
    rw [he, h1, h2]
    ring
  have hSne : (5 : ℚ)/2 * c 0 ≠ 0 := mul_ne_zero (by norm_num) hc0ne
  apply vec3_ext
  · show c 0 / (∑ s, d s i) = ![(2:ℚ)/5, 1/5, 2/5] 0
    rw [hS, div_eq_iff hSne]
    simp only [Matrix.cons_val_zero]
    ring
  · show c 1 / (∑ s, d s i) = ![(2:ℚ)/5, 1/5, 2/5] 1
    rw [hS, h1, div_eq_iff hSne]
    simp only [Matrix.cons_val_one, Matrix.head_cons]
    ring
  · show c 2 / (∑ s, d s i) = ![(2:ℚ)/5, 1/5, 2/5] 2
    rw [hS, h2, div_eq_iff hSne]
    simp only [Matrix.cons_val_two, Matrix.tail_cons, Matrix.head_cons]
    ring

/-- **C4 witness**: the concrete rational eigendecomposition of
`transpose Poz` with `v = [1, 1/4, -1/4]` and eigenvector columns
`(2,1,2)`, `(1,0,-1)`, `(1,-2,1)`. -/
theorem steady_state_oz_witness :
    steady_state ![(1 : ℚ), 1/4, -1/4] !![2, 1, 1; 1, 0, -2; 2, -1, 1] =
      ![2/5, 1/5, 2/5] := by
  apply steady_state_oz
  · refine fin3_forall ?_ ?_ ?_ <;>
      · rw [ozT_lit]
        apply vec3_ext <;>
          · simp only [dcol, Matrix.mulVec, dotProduct, Fin.sum_univ_three,
              Matrix.of_apply, Matrix.cons_val_zero, Matrix.cons_val_one,
              Matrix.cons_val_two, Matrix.head_cons, Matrix.tail_cons,
              Pi.smul_apply, smul_eq_mul]
            norm_num
  · refine fin3_forall ?_ ?_ ?_ <;>
      · intro h
        have h0 := congrFun h 0
        simp only [dcol, Matrix.of_apply, Matrix.cons_val_zero, Matrix.cons_val_one,
          Matrix.cons_val_two, Matrix.head_cons, Matrix.tail_cons,
          Pi.zero_apply] at h0
        norm_num at h0
  · intro lam hex
    obtain ⟨c0, hc0ne, hc0⟩ := hex
    rcases oz_eigenvalues lam c0 hc0ne hc0 with h | h | h
    · refine ⟨0, ?_⟩
      simp only [Matrix.cons_val_zero, h]
    · refine ⟨1, ?_⟩
      simp only [Matrix.cons_val_one, Matrix.head_cons, h]
    · refine ⟨2, ?_⟩
      simp only [Matrix.cons_val_two, Matrix.tail_cons, Matrix.head_cons, h]

/-- Limit matrix of `Poz`: every row is the stationary distribution `(2/5, 1/5, 2/5)`. -/
def Ainf : Matrix (Fin 3) (Fin 3) ℚ := !![2/5, 1/5, 2/5; 2/5, 1/5, 2/5; 2/5, 1/5, 2/5]

/-- Fluctuation part `Poz - Ainf`. -/
def Qoz : Matrix (Fin 3) (Fin 3) ℚ := Poz - Ainf

/-- `Qoz * Qoz`, precomputed. -/
def Q2 : Matrix (Fin 3) (Fin 3) ℚ :=
  !![3/80, -1/80, -1/40; -1/40, 1/20, -1/40; -1/40, -1/80, 3/80]

lemma Qoz_lit : Qoz = !![(1:ℚ)/10, 1/20, -3/20; 1/10, -1/5, 1/10; -3/20, 1/20, 1/10] := by
  unfold Qoz
  apply mat3_ext <;>
    · simp only [Poz, Ainf, Matrix.sub_apply, Matrix.of_apply, Matrix.cons_val_zero,
        Matrix.cons_val_one, Matrix.cons_val_two, Matrix.head_cons, Matrix.tail_cons]
      norm_num

lemma oz_mul_Ainf : Poz * Ainf = Ainf := by
  apply mat3_ext <;>
    · simp only [Poz, Ainf, Matrix.mul_apply, Fin.sum_univ_three, Matrix.of_apply,
        Matrix.cons_val_zero, Matrix.cons_val_one, Matrix.cons_val_two,
        Matrix.head_cons, Matrix.tail_cons]
      norm_num

lemma Ainf_mul_oz : Ainf * Poz = Ainf := by
  apply mat3_ext <;>
    · simp only [Poz, Ainf, Matrix.mul_apply, Fin.sum_univ_three, Matrix.of_apply,
        Matrix.cons_val_zero, Matrix.cons_val_one, Matrix.cons_val_two,
        Matrix.head_cons, Matrix.tail_cons]
      norm_num

lemma Ainf_idem : Ainf * Ainf = Ainf := by
  apply mat3_ext <;>
    · simp only [Ainf, Matrix.mul_apply, Fin.sum_univ_three, Matrix.of_apply,
        Matrix.cons_val_zero, Matrix.cons_val_one, Matrix.cons_val_two,
        Matrix.head_cons, Matrix.tail_cons]
      norm_num

lemma Qoz_sq : Qoz * Qoz = Q2 := by
  rw [Qoz_lit]
  apply mat3_ext <;>
    · simp only [Q2, Matrix.mul_apply, Fin.sum_univ_three, Matrix.of_apply,
        Matrix.cons_val_zero, Matrix.cons_val_one, Matrix.cons_val_two,
        Matrix.head_cons, Matrix.tail_cons]
      norm_num

lemma Q2_mul_Q2 : Q2 * Q2 = (16:ℚ)⁻¹ • Q2 := by
  apply mat3_ext <;>
    · simp only [Q2, Matrix.mul_apply, Fin.sum_univ_three, Matrix.smul_apply,
        smul_eq_mul, Matrix.of_apply, Matrix.cons_val_zero, Matrix.cons_val_one,
        Matrix.cons_val_two, Matrix.head_cons, Matrix.tail_cons]
      norm_num

lemma Qoz_mul_Ainf : Qoz * Ainf = 0 := by
  unfold Qoz
  rw [sub_mul, oz_mul_Ainf, Ainf_idem, sub_self]

lemma Qoz_pow_mul_Ainf (n : ℕ) : Qoz ^ (n + 1) * Ainf = 0 := by
  rw [pow_succ, mul_assoc, Qoz_mul_Ainf, mul_zero]

lemma oz_pow_split : ∀ n : ℕ, Poz ^ (n + 1) = Ainf + Qoz ^ (n + 1) := by
  intro n
  induction n with
  | zero =>
      rw [pow_one, pow_one, Qoz]
      rw [add_comm, sub_add_cancel]
  | succ n ih =>
      have hP : Poz = Ainf + Qoz := by
        rw [Qoz, add_comm, sub_add_cancel]
      calc Poz ^ (n + 2) = Poz ^ (n + 1) * Poz := by rw [pow_succ]
        _ = (Ainf + Qoz ^ (n + 1)) * Poz := by rw [ih]
        _ = Ainf * Poz + Qoz ^ (n + 1) * (Ainf + Qoz) := by rw [add_mul, ← hP]
        _ = Ainf + (Qoz ^ (n + 1) * Ainf + Qoz ^ (n + 1) * Qoz) := by
              rw [Ainf_mul_oz, mul_add]
        _ = Ainf + Qoz ^ (n + 2) := by
              rw [Qoz_pow_mul_Ainf, zero_add, ← pow_succ]

lemma Qoz_pow_even : ∀ m : ℕ, Qoz ^ (2 * m + 2) = ((16:ℚ)⁻¹) ^ m • Q2 := by
  intro m
  induction m with
  | zero =>
      rw [pow_zero, one_smul]
      norm_num
      rw [pow_two, Qoz_sq]
  | succ m ih =>
      have hexp : 2 * (m + 1) + 2 = (2 * m + 2) + 2 := by ring
      rw [hexp, pow_add, ih, pow_two, Qoz_sq, smul_mul_assoc, Q2_mul_Q2,
        smul_smul, ← pow_succ]

lemma oz_pow_1000 : Poz ^ 1000 = Ainf + ((16:ℚ)⁻¹) ^ 499 • Q2 := by
  have h1 := oz_pow_split 999
  have h2 := Qoz_pow_even 499
  have e1 : (999 : ℕ) + 1 = 1000 := by norm_num
  have e2 : 2 * 499 + 2 = 1000 := by norm_num
  rw [e1] at h1
  rw [e2] at h2
  rw [h1, h2]

/-- Determinant of `I - Poz + (Ainf + e • Q2)` as a polynomial in `e`. -/
def detB (e : ℚ) : ℚ := 15/16 + 1/8 * e + 1/256 * e^2

/-- Adjugate of `I - Poz + (Ainf + e • Q2)` as a matrix of polynomials in `e`. -/
def NB (e : ℚ) : Matrix (Fin 3) (Fin 3) ℚ :=
  !![43/40 + 7/80*e + 1/640*e^2, 3/80 + 1/80*e + 1/1280*e^2, -7/40 + 1/40*e + 1/640*e^2;
     3/40 + 1/40*e + 1/640*e^2, 63/80 + 3/40*e + 1/1280*e^2, 3/40 + 1/40*e + 1/640*e^2;
     -7/40 + 1/40*e + 1/640*e^2, 3/80 + 1/80*e + 1/1280*e^2, 43/40 + 7/80*e + 1/640*e^2]

/-- The matrix `I - Poz + A` that `fmpt` inverts, with `A = Ainf + e • Q2`. -/
def Boz (e : ℚ) : Matrix (Fin 3) (Fin 3) ℚ := 1 - Poz + (Ainf + e • Q2)

lemma Boz_lit (e : ℚ) : Boz e =
    !![9/10 + 3/80*e, -1/20 - 1/80*e, 3/20 - 1/40*e;
       -1/10 - 1/40*e, 6/5 + 1/20*e, -1/10 - 1/40*e;
       3/20 - 1/40*e, -1/20 - 1/80*e, 9/10 + 3/80*e] := by
  unfold Boz
  rw [one_fin_three]
  apply mat3_ext <;>
    · simp only [Poz, Ainf, Q2, Matrix.add_apply, Matrix.sub_apply, Matrix.smul_apply,
        smul_eq_mul, Matrix.of_apply, Matrix.cons_val_zero, Matrix.cons_val_one,
        Matrix.cons_val_two, Matrix.head_cons, Matrix.tail_cons]
      ring

lemma Boz_det (e : ℚ) : (Boz e).det = detB e := by
  rw [Boz_lit, Matrix.det_fin_three]
  simp only [Matrix.of_apply, Matrix.cons_val_zero, Matrix.cons_val_one,
    Matrix.cons_val_two, Matrix.head_cons, Matrix.tail_cons]
  unfold detB
  ring

lemma Boz_mul_NB (e : ℚ) : Boz e * NB e = detB e • 1 := by
  rw [Boz_lit, one_fin_three]
  apply mat3_ext <;>
    · simp only [NB, detB, Matrix.mul_apply, Fin.sum_univ_three, Matrix.smul_apply,
        smul_eq_mul, Matrix.of_apply, Matrix.cons_val_zero, Matrix.cons_val_one,
        Matrix.cons_val_two, Matrix.head_cons, Matrix.tail_cons]
      ring

lemma detB_pos (e : ℚ) (h0 : 0 ≤ e) : (15:ℚ)/16 ≤ detB e := by
  unfold detB
  nlinarith [sq_nonneg e]

lemma detB_ne (e : ℚ) (h0 : 0 ≤ e) : detB e ≠ 0 := by
  have := detB_pos e h0
  intro h
  rw [h] at this
  norm_num at this

lemma NB_eq_adjugate (e : ℚ) (h0 : 0 ≤ e) : (Boz e).adjugate = NB e := by
  have hdet : (Boz e).det ≠ 0 := by
    rw [Boz_det]
    exact detB_ne e h0
  have hu : IsUnit (Boz e).det := isUnit_iff_ne_zero.mpr hdet
  have h1 : Boz e * (Boz e).adjugate = (Boz e).det • 1 := Matrix.mul_adjugate _
  have h2 : Boz e * NB e = (Boz e).det • 1 := by
    rw [Boz_det]
    exact Boz_mul_NB e
  have h3 : (Boz e)⁻¹ * (Boz e * (Boz e).adjugate) = (Boz e)⁻¹ * (Boz e * NB e) := by
    rw [h1, h2]
  rwa [← mul_assoc, ← mul_assoc, Matrix.nonsing_inv_mul _ hu, one_mul, one_mul] at h3

lemma npinv_Boz (e : ℚ) (h0 : 0 ≤ e) :
    npinv (Boz e) = Except.ok ((detB e)⁻¹ • NB e) := by
  have hdet : (Boz e).det ≠ 0 := by
    rw [Boz_det]
    exact detB_ne e h0
  rw [npinv, if_neg hdet, NB_eq_adjugate e h0, Boz_det]

lemma inv_sub_div (dd x y a : ℚ) (hd : dd ≠ 0) :
    (dd⁻¹ * x - dd⁻¹ * y) / a = (x - y) / (dd * a) := by
  rcases eq_or_ne a 0 with ha | ha
  · rw [ha, mul_zero, div_zero, div_zero]
  · field_simp

lemma div_near (n D t e g : ℚ) (h1 : n - t * D = e * g) (h2 : |g| ≤ 1) (h3 : 0 ≤ e)
    (h4 : e ≤ 1/1000000000) (h5 : 1/8 ≤ D) : |n / D - t| < 1/1000000 := by
  have hD : (0:ℚ) < D := by linarith
  have heq : n / D - t = (n - t * D) / D := by
    field_simp
    ring
  rw [heq, h1, abs_div, abs_of_pos hD, div_lt_iff₀ hD]
  have habs : |e * g| ≤ e := by
    rw [abs_mul, abs_of_nonneg h3]
    calc e * |g| ≤ e * 1 := mul_le_mul_of_nonneg_left h2 h3
      _ = e := mul_one e
  nlinarith [habs]

lemma eps_nonneg : (0:ℚ) ≤ ((16:ℚ)⁻¹) ^ 499 := by positivity

lemma eps_small : ((16:ℚ)⁻¹) ^ 499 ≤ 1/1000000000 := by
  calc ((16:ℚ)⁻¹) ^ 499 ≤ ((16:ℚ)⁻¹) ^ 8 :=
        pow_le_pow_of_le_one (by norm_num) (by norm_num) (by norm_num)
    _ ≤ 1/1000000000 := by norm_num

/-- Entrywise error bound for the `fmpt` value at `Poz`, parametric in the
perturbation `e` of the limit matrix (`A = Ainf + e • Q2`). -/
lemma NB_bounds (e : ℚ) (h0 : 0 ≤ e) (h4 : e ≤ 1/1000000000) :
    ∀ i j, |(((detB e)⁻¹ • NB e) j j - ((detB e)⁻¹ • NB e) i j) / ((Ainf + e • Q2) j j)
      - !![(0:ℚ), 4, 10/3; 8/3, 0, 8/3; 10/3, 4, 0] i j| < 1/1000000 := by
  have hdne := detB_ne e h0
  have hsq : e * e ≤ e * (1/1000000000) := mul_le_mul_of_nonneg_left h4 h0
  refine fin3_forall ?_ ?_ ?_ <;> refine fin3_forall ?_ ?_ ?_
  · -- (0,0)
    simp only [sub_self, zero_div, Matrix.cons_val_zero]
    norm_num
  · -- (0,1)
    simp only [Matrix.smul_apply, smul_eq_mul]
    rw [inv_sub_div _ _ _ _ hdne]
    simp only [NB, Ainf, Q2, Matrix.add_apply, Matrix.smul_apply, smul_eq_mul,
      Matrix.of_apply, Matrix.cons_val_zero, Matrix.cons_val_one,
      Matrix.cons_val_two, Matrix.head_cons, Matrix.tail_cons]
    refine div_near _ _ _ e (-9/40 - 9/320*e - 1/1280*e^2) ?_ ?_ h0 h4 ?_
    · unfold detB
      ring
    · rw [abs_le]
      constructor
      · nlinarith [sq_nonneg e]
      · nlinarith [sq_nonneg e]
    · have ha : (1:ℚ)/5 ≤ 1/5 + e * (1/20) := by linarith
      nlinarith [detB_pos e h0, ha]
  · -- (0,2)
    simp only [Matrix.smul_apply, smul_eq_mul]
    rw [inv_sub_div _ _ _ _ hdne]
    simp only [NB, Ainf, Q2, Matrix.add_apply, Matrix.smul_apply, smul_eq_mul,
      Matrix.of_apply, Matrix.cons_val_zero, Matrix.cons_val_one,
      Matrix.cons_val_two, Matrix.head_cons, Matrix.tail_cons]
    refine div_near _ _ _ e (-85/384 - 1/48*e - 1/2048*e^2) ?_ ?_ h0 h4 ?_
    · unfold detB
      ring
    · rw [abs_le]
      constructor
      · nlinarith [sq_nonneg e]
      · nlinarith [sq_nonneg e]
    · have ha : (1:ℚ)/5 ≤ 2/5 + e * (3/80) := by linarith
      nlinarith [detB_pos e h0, ha]
  · -- (1,0)
    simp only [Matrix.smul_apply, smul_eq_mul]
    rw [inv_sub_div _ _ _ _ hdne]
    simp only [NB, Ainf, Q2, Matrix.add_apply, Matrix.smul_apply, smul_eq_mul,
      Matrix.of_apply, Matrix.cons_val_zero, Matrix.cons_val_one,
      Matrix.cons_val_two, Matrix.head_cons, Matrix.tail_cons]
    refine div_near _ _ _ e (-79/480 - 1/60*e - 1/2560*e^2) ?_ ?_ h0 h4 ?_
    · unfold detB
      ring
    · rw [abs_le]
      constructor
      · nlinarith [sq_nonneg e]
      · nlinarith [sq_nonneg e]
    · have ha : (1:ℚ)/5 ≤ 2/5 + e * (3/80) := by linarith
      nlinarith [detB_pos e h0, ha]
  · -- (1,1)
    simp only [sub_self, zero_div, Matrix.cons_val_one, Matrix.head_cons]
    norm_num
  · -- (1,2)
    simp only [Matrix.smul_apply, smul_eq_mul]
    rw [inv_sub_div _ _ _ _ hdne]
    simp only [NB, Ainf, Q2, Matrix.add_apply, Matrix.smul_apply, smul_eq_mul,
      Matrix.of_apply, Matrix.cons_val_zero, Matrix.cons_val_one,
      Matrix.cons_val_two, Matrix.head_cons, Matrix.tail_cons]
    refine div_near _ _ _ e (-79/480 - 1/60*e - 1/2560*e^2) ?_ ?_ h0 h4 ?_
    · unfold detB
      ring
    · rw [abs_le]
      constructor
      · nlinarith [sq_nonneg e]
      · nlinarith [sq_nonneg e]
    · have ha : (1:ℚ)/5 ≤ 2/5 + e * (3/80) := by linarith
      nlinarith [detB_pos e h0, ha]
  · -- (2,0)
    simp only [Matrix.smul_apply, smul_eq_mul]
    rw [inv_sub_div _ _ _ _ hdne]
    simp only [NB, Ainf, Q2, Matrix.add_apply, Matrix.smul_apply, smul_eq_mul,
      Matrix.of_apply, Matrix.cons_val_zero, Matrix.cons_val_one,
      Matrix.cons_val_two, Matrix.head_cons, Matrix.tail_cons]
    refine div_near _ _ _ e (-85/384 - 1/48*e - 1/2048*e^2) ?_ ?_ h0 h4 ?_
    · unfold detB
      ring
    · rw [abs_le]
      constructor
      · nlinarith [sq_nonneg e]
      · nlinarith [sq_nonneg e]
    · have ha : (1:ℚ)/5 ≤ 2/5 + e * (3/80) := by linarith
      nlinarith [detB_pos e h0, ha]
  · -- (2,1)
    simp only [Matrix.smul_apply, smul_eq_mul]
    rw [inv_sub_div _ _ _ _ hdne]
    simp only [NB, Ainf, Q2, Matrix.add_apply, Matrix.smul_apply, smul_eq_mul,
      Matrix.of_apply, Matrix.cons_val_zero, Matrix.cons_val_one,
      Matrix.cons_val_two, Matrix.head_cons, Matrix.tail_cons]
    refine div_near _ _ _ e (-9/40 - 9/320*e - 1/1280*e^2) ?_ ?_ h0 h4 ?_
    · unfold detB
      ring
    · rw [abs_le]
      constructor
      · nlinarith [sq_nonneg e]
      · nlinarith [sq_nonneg e]
    · have ha : (1:ℚ)/5 ≤ 1/5 + e * (1/20) := by linarith
      nlinarith [detB_pos e h0, ha]
  · -- (2,2)
    simp only [sub_self, zero_div, Matrix.cons_val_two, Matrix.tail_cons,
      Matrix.head_cons]
    norm_num

/-- The `(0,1)` and `(1,0)` values of the `fmpt` result at `Poz` differ
(one is near `4`, the other near `8/3`). -/
lemma NB_ne (e : ℚ) (h0 : 0 ≤ e) (h4 : e ≤ 1/1000000000) :
    (((detB e)⁻¹ • NB e) 1 1 - ((detB e)⁻¹ • NB e) 0 1) / ((Ainf + e • Q2) 1 1)
      ≠ (((detB e)⁻¹ • NB e) 0 0 - ((detB e)⁻¹ • NB e) 1 0) / ((Ainf + e • Q2) 0 0) := by
  have hx := NB_bounds e h0 h4 0 1
  have hy := NB_bounds e h0 h4 1 0
  simp only [Matrix.of_apply, Matrix.cons_val_zero, Matrix.cons_val_one,
    Matrix.head_cons, Matrix.cons_val_two, Matrix.tail_cons] at hx hy
  intro hEq
  rcases abs_lt.mp hx with ⟨hx1, hx2⟩
  rcases abs_lt.mp hy with ⟨hy1, hy2⟩
  rw [hEq] at hx1 hx2
  linarith

/-- **C5.**  `fmpt` on the Oz matrix completes and returns (to within `10⁻⁶`,
exactly as far as the doctest prints) the matrix
`[[0, 4, 10/3], [8/3, 0, 8/3], [10/3, 4, 0]]`; in particular the `(0,1)`
entry and the `(1,0)` entry differ, so the result is not symmetric. -/
theorem fmpt_oz :
    ∃ M, fmpt Poz = Except.ok M ∧
      (∀ i j, |M i j - !![(0:ℚ), 4, 10/3; 8/3, 0, 8/3; 10/3, 4, 0] i j| < 1/1000000) ∧
      M 0 1 ≠ M 1 0 := by
  have h0 := eps_nonneg
  have h4 := eps_small
  have hB : 1 - Poz + Poz ^ 1000 = Boz (((16:ℚ)⁻¹) ^ 499) := by
    rw [oz_pow_1000]
    rfl
  have hok : npinv (1 - Poz + Poz ^ 1000)
      = Except.ok ((detB (((16:ℚ)⁻¹) ^ 499))⁻¹ • NB (((16:ℚ)⁻¹) ^ 499)) := by
    rw [hB]
    exact npinv_Boz _ h0
  have hfm := fmpt_of_npinv_ok Poz _ hok
  rw [oz_pow_1000] at hfm
  have hb := NB_bounds (((16:ℚ)⁻¹) ^ 499) h0 h4
  refine ⟨_, hfm, ?_, ?_⟩
  · intro i j
    simpa only [Matrix.of_apply] using hb i j
  · intro hEq
    exact NB_ne (((16:ℚ)⁻¹) ^ 499) h0 h4 hEq

/-- The mutable state of `fmpt`'s double loop: the argument array `P` and the
result array `M` (initially `np.zeros_like(Z)`).  Only `M[i,j]` appears on the
left of an assignment in the source; `P` is threaded through to state the
frame property. -/
structure LoopState (k : ℕ) where
  P : Matrix (Fin k) (Fin k) ℚ
  M : Matrix (Fin k) (Fin k) ℚ

/-- In-place update `M[i,j] = x` of a numpy array. -/
def setEntry {k : ℕ} (M : Matrix (Fin k) (Fin k) ℚ) (i j : Fin k) (x : ℚ) :
    Matrix (Fin k) (Fin k) ℚ :=
  Matrix.of fun a b => if a = i ∧ b = j then x else M a b

/-- Iteration order of `for i in range(k): for j in range(k):`. -/
def loopPairs (k : ℕ) : List (Fin k × Fin k) :=
  (List.finRange k).product (List.finRange k)

/-- One iteration of the loop body `M[i,j] = (Z[j,j] - Z[i,j]) / A[j,j]`. -/
def fmptStep {k : ℕ} (A Z : Matrix (Fin k) (Fin k) ℚ) (st : LoopState k)
    (p : Fin k × Fin k) : LoopState k :=
  ⟨st.P, setEntry st.M p.1 p.2 ((Z p.2 p.2 - Z p.1 p.2) / A p.2 p.2)⟩

/-- The imperative embedding of `fmpt`: identical to `fmpt` except that the
double loop is executed as explicit state updates, and the final value of the
array `P` is returned alongside `M`. -/
def fmptImp {k : ℕ} (P : Matrix (Fin k) (Fin k) ℚ) :
    Except NumErr (Matrix (Fin k) (Fin k) ℚ × Matrix (Fin k) (Fin k) ℚ) :=
  match npinv (1 - P + P ^ 1000) with
  | Except.error e => Except.error e
  | Except.ok Z =>
      let st := (loopPairs k).foldl (fmptStep (P ^ 1000) Z) ⟨P, 0⟩
      Except.ok (st.P, st.M)

lemma foldl_P {k : ℕ} (A Z : Matrix (Fin k) (Fin k) ℚ) (l : List (Fin k × Fin k))
    (st : LoopState k) : (l.foldl (fmptStep A Z) st).P = st.P := by
  induction l generalizing st with
  | nil => rfl
  | cons p t ih =>
      rw [List.foldl_cons, ih]
      rfl

lemma foldl_M {k : ℕ} (A Z : Matrix (Fin k) (Fin k) ℚ) (l : List (Fin k × Fin k))
    (st : LoopState k) (a b : Fin k) :
    (l.foldl (fmptStep A Z) st).M a b =
      if (a, b) ∈ l then (Z b b - Z a b) / A b b else st.M a b := by
  induction l generalizing st with
  | nil => simp
  | cons p t ih =>
      obtain ⟨pi, pj⟩ := p
      rw [List.foldl_cons, ih]
      by_cases hmem : (a, b) ∈ t
      · simp [hmem]
      · by_cases hp : (a, b) = (pi, pj)
        · obtain ⟨ha, hb⟩ := Prod.mk.injEq .. ▸ hp
          subst ha
          subst hb
          simp [hmem, fmptStep, setEntry]
        · have hne : ¬(a = pi ∧ b = pj) := by
            rintro ⟨ha, hb⟩
            exact hp (by rw [ha, hb])
          simp [hmem, hp, fmptStep, setEntry, hne]

lemma mem_loopPairs {k : ℕ} (a b : Fin k) : (a, b) ∈ loopPairs k := by
  unfold loopPairs
  rw [List.pair_mem_product]
  exact ⟨List.mem_finRange a, List.mem_finRange b⟩

/-- **C10.**  The loop of `fmpt` never writes to `P`: on the success path the
state-threaded execution returns the array `P` exactly as passed in, with `M`
equal to the functional result, and on the failure path the same exception as
the functional `fmpt`. -/
theorem fmpt_no_mutation {k : ℕ} (P : Matrix (Fin k) (Fin k) ℚ) :
    (∀ e, fmptImp P = Except.error e ↔ fmpt P = Except.error e) ∧
      ∀ P2 M, fmptImp P = Except.ok (P2, M) → P2 = P ∧ fmpt P = Except.ok M := by
  rcases hnp : npinv (1 - P + P ^ 1000) with e0 | Z
  · constructor
    · intro e
      unfold fmptImp fmpt
      rw [hnp]
      simp
    · intro P2 M h
      unfold fmptImp at h
      rw [hnp] at h
      simp at h
  · constructor
    · intro e
      unfold fmptImp fmpt
      rw [hnp]
      constructor <;> · intro h; simp at h
    · intro P2 M h
      unfold fmptImp at h
      rw [hnp] at h
      have hpair := Except.ok.inj h
      rw [Prod.mk.injEq] at hpair
      obtain ⟨h1, h2⟩ := hpair
      constructor
      · rw [← h1]
        exact foldl_P _ _ _ _
      · unfold fmpt
        rw [hnp, ← h2]
        refine congrArg Except.ok ?_
        ext a b
        rw [foldl_M]
        simp [mem_loopPairs a b]

/-- **C10 witness** at `P = [[1]]`: the imperative run returns `P` unchanged
(`P2 = P = 1`) and the functional result `M = 0`. -/
theorem fmpt_no_mutation_witness :
    (1 : Matrix (Fin 1) (Fin 1) ℚ) = 1 ∧
      fmpt (1 : Matrix (Fin 1) (Fin 1) ℚ) = Except.ok 0 := by
  have hnp1 : npinv ((1 : Matrix (Fin 1) (Fin 1) ℚ) - 1 + 1 ^ 1000) = Except.ok 1 := by
    rw [one_sub_one_add_pow]
    rw [npinv_ok_of_det_ne 1 (by rw [Matrix.det_one]; norm_num), inv_one]
  have hM : ((loopPairs 1).foldl
        (fmptStep ((1 : Matrix (Fin 1) (Fin 1) ℚ) ^ 1000) 1) ⟨1, 0⟩).M
      = (0 : Matrix (Fin 1) (Fin 1) ℚ) := by
    ext a b
    have hab : a = b := Subsingleton.elim a b
    subst hab
    rw [foldl_M]
    simp [mem_loopPairs a a]
  have hImp : fmptImp (1 : Matrix (Fin 1) (Fin 1) ℚ) = Except.ok (1, 0) := by
    unfold fmptImp
    rw [hnp1]
    show Except.ok
        (((loopPairs 1).foldl (fmptStep ((1 : Matrix (Fin 1) (Fin 1) ℚ) ^ 1000) 1) ⟨1, 0⟩).P,
         ((loopPairs 1).foldl (fmptStep ((1 : Matrix (Fin 1) (Fin 1) ℚ) ^ 1000) 1) ⟨1, 0⟩).M)
      = Except.ok (1, 0)
    rw [foldl_P, hM]
  exact (fmpt_no_mutation 1).2 1 0 hImp

end Ergodic
